import Mathlib

/-!
# Verification of the blenderOSC OSC codec (`example/scripts/OSCcodec.py`)

This file is a shallow embedding, in Lean 4, of the OSC (Open Sound Control)
binary codec found in `example/scripts/OSCcodec.py` of the blenderOSC
repository.  The Python functions `OSCString`, `OSCBlob`, `OSCArgument`,
`OSCTimeTag`, `_readString`, `_readBlob`, `_readInt`, `_readFloat`,
`_readDouble`, `_readTimeTag` and `decodeOSC`, as well as the message/bundle
builder methods `OSCMessage.append`, `OSCMessage.getBinary`,
`OSCBundle.append` and `OSCBundle.getBinary`, are translated into executable
Lean definitions and their behaviour is settled by the theorems at the end of
the file.

Modelling conventions:
* A Python `bytes` value is a `List Nat` whose entries are below 256.
* Python `int` is `Int`; a Python `float` (an IEEE-754 binary64 value) is
  modelled by the rational number it denotes, `ℚ`.  Binary64/binary32
  rounding (`struct.pack('>f'|'>d')`, decimal-literal parsing) is modelled
  explicitly by an executable round-to-nearest-even function.
* Fallible Python code (raising exceptions) is modelled with `Option` /
  `Except`; `print` calls are side effects that do not affect values and are
  dropped.
* Python slice semantics (negative indices counting from the end, clamping)
  are modelled by `pyIdx` / `pySlice` / `pyDropSlice` exactly, because
  `_readString` and `_readBlob` rely on them (`data[0:-1]` on a NUL-free
  buffer, for example).
-/

namespace OSCcodec

attribute [local semireducible] Rat.add Rat.mul Rat.inv Rat.sub Rat.ofScientific

/-- A byte (an entry of a Python `bytes` object). -/
abbrev Byte := Nat

/-! ## struct.pack / struct.unpack primitives (big-endian) -/

/-- Big-endian 4-byte encoding of a natural number below `2^32`
(`struct.pack('>L', v)`, and the bit layer of `'>i'`, `'>f'`). -/
def be4 (v : Nat) : List Byte :=
  [v / 16777216 % 256, v / 65536 % 256, v / 256 % 256, v % 256]

/-- Big-endian value of a byte string (`int.from_bytes(bs, 'big')`). -/
def beNat (bs : List Byte) : Nat := bs.foldl (fun a b => a * 256 + b) 0

/-- `struct.unpack('>L', bs)` for a 4-byte string. -/
def unpackUInt32 (bs : List Byte) : Nat := beNat (bs.take 4)

/-- `struct.unpack('>i', bs)` for a 4-byte string: two's-complement signed. -/
def unpackInt32 (bs : List Byte) : Int :=
  let v := unpackUInt32 bs
  if v < 2 ^ 31 then (v : Int) else (v : Int) - 2 ^ 32

/-- `struct.pack('>i', n)`: 4 bytes two's-complement big-endian;
`struct.error` (modelled as `none`) if `n` is outside `[-2^31, 2^31)`. -/
def packInt32 (n : Int) : Option (List Byte) :=
  if -(2 ^ 31) ≤ n ∧ n < 2 ^ 31 then some (be4 (n % 2 ^ 32).toNat) else none

/-- `struct.pack('>L', n)` for `n : Int`:
`struct.error` (modelled as `none`) if `n` is outside `[0, 2^32)`. -/
def packUInt32 (n : Int) : Option (List Byte) :=
  if 0 ≤ n ∧ n < 2 ^ 32 then some (be4 n.toNat) else none

/-! ## Python slicing, `bytes.find`, `math.ceil(x/4.0)*4` -/

/-- Resolve a Python slice endpoint against a sequence of length `len`:
negative indices count from the end, then the result is clamped to
`[0, len]`. -/
def pyIdx (len : Nat) (i : Int) : Nat :=
  (if i < 0 then i + len else i).toNat.min len

/-- Python `data[a:b]`. -/
def pySlice (data : List Byte) (a b : Int) : List Byte :=
  (data.take (pyIdx data.length b)).drop (pyIdx data.length a)

/-- Python `data[a:]`. -/
def pyDropSlice (data : List Byte) (a : Int) : List Byte :=
  data.drop (pyIdx data.length a)

/-- Python `data.find(b'\0')`: index of the first NUL byte, `-1` if none. -/
def pyFind0 (data : List Byte) : Int :=
  match data.findIdx? (· == 0) with
  | some i => (i : Int)
  | none => -1

/-- `math.ceil(k / 4.0) * 4` on an integer `k` (the float detour of the
source is exact for every length a Python object can have). -/
def ceil4 (k : Int) : Int := ((k + 3).fdiv 4) * 4

/-- The padded length `math.ceil(n / 4.0) * 4` for a natural `n`. -/
def padded4 (n : Nat) : Nat := (n + 3) / 4 * 4

/-! ## Latin-1 text -/

/-- `s.encode('latin-1')`: one byte per character; raises
`UnicodeEncodeError` (modelled as `none`) if any code point is above 255. -/
def latin1Encode (s : String) : Option (List Byte) :=
  if ∀ c ∈ s.data, c.toNat ≤ 255 then some (s.data.map Char.toNat) else none

/-- `bs.decode('latin-1')`: every byte is a code point.  (Entries ≥ 256 are
not bytes and cannot occur in inputs of interest.) -/
def latin1Decode (bs : List Byte) : String :=
  ⟨bs.map Char.ofNat⟩

/-! ## Encoding functions of the source -/

/-- Total length of `OSCString s`: `math.ceil((len(s)+1) / 4.0) * 4`. -/
def oscStringLength (n : Nat) : Nat := (n + 1 + 3) / 4 * 4

/-- `OSCString(next)`: latin-1 encode and zero-pad to the smallest multiple
of 4 strictly greater than the length (`struct.pack('>%ds' % L, ...)` pads
with NUL bytes).  `none` models the `UnicodeEncodeError` escaping from
`next.encode('latin-1')`. -/
def OSCString (s : String) : Option (List Byte) :=
  (latin1Encode s).map fun b =>
    b ++ List.replicate (oscStringLength s.length - b.length) 0

/-- `OSCBlob(next)` on a `bytes` value: a big-endian `int32` holding the
*padded* length `math.ceil(len(next)/4.0)*4`, then the payload zero-padded
to that length.  `none` models `struct.error` from `struct.pack('>i', ...)`
when the padded length does not fit in an `int32`. -/
def OSCBlob (b : List Byte) : Option (List Byte) :=
  (packInt32 (padded4 b.length)).map fun pre =>
    pre ++ b ++ List.replicate (padded4 b.length - b.length) 0

/-- `NTP_epoch = calendar.timegm((1900,1,1,0,0,0))`, the 1900 epoch in
seconds relative to 1970 (negative). -/
def NTP_epoch : Int := -2208988800

/-- `NTP_units_per_second = 0x100000000`. -/
def NTP_units_per_second : Nat := 4294967296

/-- Python `int(q)` on a float value: truncation toward zero. -/
def pyTrunc (q : ℚ) : Int := if q < 0 then ⌈q⌉ else ⌊q⌋

/-- `OSCTimeTag(time)`: for `time > 0`, split by `math.modf` into integer
and fractional part, offset the seconds by the NTP epoch and emit two
big-endian unsigned 32-bit words; otherwise emit the words `(0, 1)`.
`none` models the `struct.error` raised by `struct.pack('>LL', ...)` when a
word is out of range. -/
def OSCTimeTag (t : ℚ) : Option (List Byte) :=
  if 0 < t then
    match packUInt32 (pyTrunc t - NTP_epoch),
        packUInt32 (pyTrunc ((t - pyTrunc t) * NTP_units_per_second)) with
    | some hi, some lo => some (hi ++ lo)
    | _, _ => none
  else
    some (be4 0 ++ be4 1)

/-! ## IEEE-754 rounding (the bit layer of `struct.pack('>f')`/`'>d'` and of
Python float literals) -/

/-- Round a rational to the nearest integer, ties to even (the rounding used
by IEEE-754 conversions in CPython). -/
def roundHalfEven (q : ℚ) : Int :=
  let f := ⌊q⌋
  let r := q - f
  if r < 1 / 2 then f
  else if 1 / 2 < r then f + 1
  else if 2 ∣ f then f else f + 1

/-- `⌊log₂ n⌋` for `1 ≤ n`, by fuelled structural recursion (so that it
evaluates inside the kernel). -/
def natLog2F : Nat → Nat → Nat
  | 0, _ => 0
  | f + 1, n => if n < 2 then 0 else 1 + natLog2F f (n / 2)

/-- `⌈log₂ n⌉` for `1 ≤ n`, by fuelled structural recursion. -/
def natClog2F : Nat → Nat → Nat
  | 0, _ => 0
  | f + 1, n => if n ≤ 1 then 0 else 1 + natClog2F f ((n + 1) / 2)

/-- `⌊log₂ a⌋` of a positive rational: the unique `e` with
`2^e ≤ a < 2^(e+1)`. -/
def ratLog2 (a : ℚ) : Int :=
  if 1 ≤ a then (natLog2F a.floor.toNat a.floor.toNat : Int)
  else -(natClog2F a⁻¹.ceil.toNat a⁻¹.ceil.toNat : Int)

/-- `2^k` as a rational, for an integer `k` of either sign. -/
def pow2 (k : Int) : ℚ :=
  if 0 ≤ k then ((2 ^ k.toNat : Nat) : ℚ) else 1 / ((2 ^ (-k).toNat : Nat) : ℚ)

/-- The bit pattern of the IEEE-754 binary-interchange value nearest to `q`,
with `prec` explicit mantissa bits and a `w`-bit exponent (`prec = 23, w = 8`
for binary32, `prec = 52, w = 11` for binary64).  `none` models the
`OverflowError` on values that round beyond the largest finite value. -/
def fpBits (prec w : Nat) (q : ℚ) : Option Nat :=
  let bias : Int := 2 ^ (w - 1) - 1
  if q = 0 then some 0
  else
    let s : Nat := if q < 0 then 1 else 0
    let a := |q|
    let e := max (ratLog2 a) (1 - bias)
    let m := roundHalfEven (a * pow2 ((prec : Int) - e))
    let e2 := if m = 2 ^ (prec + 1) then e + 1 else e
    let m2 : Int := if m = 2 ^ (prec + 1) then 2 ^ prec else m
    if bias < e2 then none
    else if m2 < 2 ^ prec then
      some (s * 2 ^ (prec + w) + m2.toNat)
    else
      some (s * 2 ^ (prec + w) + (e2 + bias).toNat * 2 ^ prec + (m2.toNat - 2 ^ prec))

/-- The value of the IEEE-754 value nearest to `q` (same rounding as
`fpBits`), as a rational.  `none` on overflow. -/
def fpRound (prec w : Nat) (q : ℚ) : Option ℚ :=
  let bias : Int := 2 ^ (w - 1) - 1
  if q = 0 then some 0
  else
    let sgn : ℚ := if q < 0 then -1 else 1
    let a := |q|
    let e := max (ratLog2 a) (1 - bias)
    let m := roundHalfEven (a * pow2 ((prec : Int) - e))
    let e2 := if m = 2 ^ (prec + 1) then e + 1 else e
    let m2 : Int := if m = 2 ^ (prec + 1) then 2 ^ prec else m
    if bias < e2 then none
    else some (sgn * m2 * pow2 (e2 - prec))

/-- The binary64 value of a real number — how CPython realises a decimal
literal or an `int`/string converted by `float()`. -/
def toBinary64 (q : ℚ) : Option ℚ := fpRound 52 11 q

/-- `struct.pack('>f', q)` for a float value `q`: 4 bytes of the nearest
binary32; `none` models `OverflowError`. -/
def packFloat32 (q : ℚ) : Option (List Byte) := (fpBits 23 8 q).map be4

/-- `struct.pack('>d', q)`: 8 bytes of the nearest binary64. -/
def packFloat64 (q : ℚ) : Option (List Byte) :=
  (fpBits 52 11 q).map fun bits => be4 (bits / 2 ^ 32) ++ be4 (bits % 2 ^ 32)

/-- The rational value of a binary32 bit pattern (`struct.unpack('>f', ...)`
— every binary32 is exactly a Python binary64 float).  Infinities and NaNs
(exponent field 255) have no rational value and are mapped to 0; they do not
occur in the situations the theorems below are about. -/
def unpackFloat32 (bs : List Byte) : ℚ :=
  let v := unpackUInt32 bs
  let e : Nat := v / 2 ^ 23 % 2 ^ 8
  let m : Nat := v % 2 ^ 23
  let mag : ℚ :=
    if e = 0 then (m : ℚ) / 2 ^ 149
    else if e = 255 then 0
    else (2 ^ 23 + m : ℚ) * 2 ^ e / 2 ^ 150
  if 2 ^ 31 ≤ v then -mag else mag

/-- The rational value of a binary64 bit pattern (`struct.unpack('>d', ...)`),
with the same convention for exponent field 2047 as `unpackFloat32`. -/
def unpackFloat64 (bs : List Byte) : ℚ :=
  let v := beNat (bs.take 8)
  let e : Nat := v / 2 ^ 52 % 2 ^ 11
  let m : Nat := v % 2 ^ 52
  let mag : ℚ :=
    if e = 0 then (m : ℚ) / 2 ^ 1074
    else if e = 2047 then 0
    else (2 ^ 52 + m : ℚ) * 2 ^ e / 2 ^ 1075
  if 2 ^ 63 ≤ v then -mag else mag

/-! ## Decoding functions of the source -/

/-- `_readString(data)`: find the first NUL, take the bytes before it as a
latin-1 string, and resume past `ceil((find+1)/4)*4` bytes.  NB with no NUL
byte `find` is `-1`, so the "string" is `data[0:-1]` (all but the last byte)
and the rest is the whole buffer: this function has no error outcome. -/
def readString (data : List Byte) : String × List Byte :=
  let length := pyFind0 data
  let nextData := ceil4 (length + 1)
  (latin1Decode (pySlice data 0 length), pyDropSlice data nextData)

/-- `_readInt(data)`: on fewer than 4 bytes, print an error and return the
substitute value 0 together with the *unconsumed* buffer; otherwise unpack a
big-endian `int32` and return the rest. -/
def readInt (data : List Byte) : Int × List Byte :=
  if data.length < 4 then (0, data)
  else (unpackInt32 (data.take 4), data.drop 4)

/-- `_readFloat(data)`: on fewer than 4 bytes, print an error and return the
substitute value 0 with the unconsumed buffer; otherwise unpack a big-endian
binary32 and return the rest. -/
def readFloat (data : List Byte) : ℚ × List Byte :=
  if data.length < 4 then (0, data)
  else (unpackFloat32 (data.take 4), data.drop 4)

/-- `_readDouble(data)`: same shape as `_readFloat` with 8 bytes. -/
def readDouble (data : List Byte) : ℚ × List Byte :=
  if data.length < 8 then (0, data)
  else (unpackFloat64 (data.take 8), data.drop 8)

/-- Failure modes of the decoding functions, as the Python exceptions that
escape them. -/
inductive DErr where
  /-- `struct.error` from an `unpack` on a too-short slice. -/
  | structError
  /-- `KeyError` from `table[tag]` on an unregistered type tag. -/
  | keyError
  /-- The `raise OSCError(...)` statement of `decodeOSC`.  The name
  `OSCError` is defined nowhere in `OSCcodec.py`, so executing this
  statement actually raises `NameError` at run time. -/
  | oscErrorRaise
  /-- Marker for the states in which the `while` loop of the `#bundle`
  branch of `decodeOSC` loops forever (`0 < len(rest) < 4`: `_readInt`
  consumes nothing and returns length 0, so `rest` never changes). -/
  | diverge
  deriving Repr, DecidableEq

/-- `_readBlob(data)`: unpack a 4-byte length (`struct.error` if fewer than
4 bytes remain), slice out that many payload bytes, and resume past the
padded length counted from the start of the payload. -/
def readBlob (data : List Byte) : Except DErr (List Byte × List Byte) :=
  if data.length < 4 then .error .structError
  else
    let length := unpackInt32 (data.take 4)
    let nextData := ceil4 length + 4
    .ok (pySlice data 4 (length + 4), pyDropSlice data nextData)

/-- `_readTimeTag(data)`: unpack two big-endian unsigned 32-bit words
(`struct.error` if fewer than 8 bytes remain); `(0, low ≤ 1)` decodes to the
float `0.0`, anything else to `NTP_epoch + high + low / 2^32`. -/
def readTimeTag (data : List Byte) : Except DErr (ℚ × List Byte) :=
  if data.length < 8 then .error .structError
  else
    let high := unpackUInt32 (data.take 4)
    let low := unpackUInt32 ((data.drop 4).take 4)
    let time : ℚ :=
      if high = 0 ∧ low ≤ 1 then 0
      else (NTP_epoch : ℚ) + high + (low : ℚ) / NTP_units_per_second
    .ok (time, data.drop 8)

/-! ## Python values and conversions (`float()`, `int()`) -/

/-- The Python values that reach `OSCArgument` (after `append` has expanded
dicts and iterables element-by-element). -/
inductive PyVal where
  | int (n : Int)
  | float (q : ℚ)
  | str (s : String)
  deriving Repr, DecidableEq

/-- Python exceptions that can escape `OSCArgument`/`append`. -/
inductive AErr where
  /-- `struct.error` from `struct.pack('>i', ...)` on an out-of-range int. -/
  | structError
  /-- `OverflowError` from `struct.pack('>f', ...)` or `float(huge int)`. -/
  | overflowError
  /-- `UnicodeEncodeError` from `.encode('latin-1')` inside `OSCString`. -/
  | unicodeEncodeError
  /-- `ValueError` from `float(...)`/`int(...)` on a non-numeric string
  (this is the only exception the `except ValueError:` clauses catch). -/
  | valueError
  /-- `TypeError`, e.g. `len()` of a number inside the `else` branch. -/
  | typeError
  deriving Repr, DecidableEq

/-- Value of a list of decimal digit characters. -/
def digitsVal (cs : List Char) : Nat :=
  cs.foldl (fun a c => a * 10 + (c.toNat - 48)) 0

/-- Python `int(s)` on a string: optional sign then decimal digits, else
`ValueError` (`none`).  (Surrounding whitespace and `_` digit separators,
which Python also accepts, are not modelled; no claim involves them.) -/
def pyParseInt (s : String) : Option Int :=
  let p : Int × List Char :=
    match s.data with
    | '-' :: r => (-1, r)
    | '+' :: r => (1, r)
    | r => (1, r)
  if p.2 ≠ [] ∧ p.2.all Char.isDigit then some (p.1 * digitsVal p.2) else none

/-- The exact rational denoted by a Python float literal accepted by
`float(s)`: `[sign] (digits [. digits] | . digits) [(e|E) [sign] digits]`.
(`inf`/`nan` spellings, whitespace and `_` separators are not modelled; no
claim involves them.) -/
def pyParseFloat (s : String) : Option ℚ :=
  let p : ℚ × List Char :=
    match s.data with
    | '-' :: r => (-1, r)
    | '+' :: r => (1, r)
    | r => (1, r)
  let mant := p.2.takeWhile (fun c => c ≠ 'e' ∧ c ≠ 'E')
  let expPart := p.2.dropWhile (fun c => c ≠ 'e' ∧ c ≠ 'E')
  let exp : Option Int :=
    match expPart with
    | [] => some 0
    | _ :: ecs =>
      let q : Int × List Char :=
        match ecs with
        | '-' :: r => (-1, r)
        | '+' :: r => (1, r)
        | r => (1, r)
      if q.2 ≠ [] ∧ q.2.all Char.isDigit then some (q.1 * digitsVal q.2) else none
  let intp := mant.takeWhile Char.isDigit
  let after := mant.drop intp.length
  let frac : Option (List Char) :=
    match after with
    | [] => some []
    | '.' :: r => if r.all Char.isDigit then some r else none
    | _ => none
  match exp, frac with
  | some e, some fr =>
    if intp.length + fr.length = 0 then none
    else some (p.1 * (digitsVal (intp ++ fr) : ℚ) / 10 ^ fr.length * 10 ^ e)
  | _, _ => none

/-- Python `float(next)`: floats pass through, ints are rounded to binary64
(`OverflowError` for ints beyond its range), strings are parsed then rounded
(`ValueError` if they do not parse; an infinite result — `float('1e999')` —
has no rational value and is not modelled, no claim involves it). -/
def pyFloat : PyVal → Except AErr ℚ
  | .int n => match toBinary64 n with
    | some v => .ok v
    | none => .error .overflowError
  | .float q => .ok q
  | .str s => match pyParseFloat s with
    | some q => .ok ((toBinary64 q).getD 0)
    | none => .error .valueError

/-- Python `int(next)`: ints pass through, floats truncate toward zero,
strings parse as decimal integers (`ValueError` otherwise). -/
def pyInt : PyVal → Except AErr Int
  | .int n => .ok n
  | .float q => .ok (pyTrunc q)
  | .str s => match pyParseInt s with
    | some n => .ok n
    | none => .error .valueError

/-! ## `OSCArgument` -/

/-- The `except ValueError:` fallback body of `OSCArgument`:
`binary = OSCString(next); tag = 's'`.  Reached only when `next` is a
string (numbers never raise `ValueError` in `float()`/`int()`); for
completeness a non-string argument models CPython's `TypeError` from
`len()`. -/
def strFallback : PyVal → Except AErr (Char × List Byte)
  | .str s => match OSCString s with
    | some bs => .ok ('s', bs)
    | none => .error .unicodeEncodeError
  | _ => .error .typeError

/-- `OSCArgument(next, typehint)`: infer a tag from the value's type when no
hint is given; with hint `'d'`/`'f'`/`'i'`, try the numeric conversion and
packing inside `try: ... except ValueError:` whose handler encodes the value
as a string instead; any other hint encodes as a string. -/
def OSCArgument (next : PyVal) (typehint : Option Char) :
    Except AErr (Char × List Byte) :=
  match typehint with
  | none =>
    match next with
    | .float q => match packFloat32 q with
      | some bs => .ok ('f', bs)
      | none => .error .overflowError
    | .int n => match packInt32 n with
      | some bs => .ok ('i', bs)
      | none => .error .structError
    | .str s => match OSCString s with
      | some bs => .ok ('s', bs)
      | none => .error .unicodeEncodeError
  | some h =>
    if h = 'd' then
      match pyFloat next with
      | .ok q => match packFloat64 q with
        | some bs => .ok ('d', bs)
        | none => .error .overflowError
      | .error .valueError => strFallback next
      | .error e => .error e
    else if h = 'f' then
      match pyFloat next with
      | .ok q => match packFloat32 q with
        | some bs => .ok ('f', bs)
        | none => .error .overflowError
      | .error .valueError => strFallback next
      | .error e => .error e
    else if h = 'i' then
      match pyInt next with
      | .ok n => match packInt32 n with
        | some bs => .ok ('i', bs)
        | none => .error .structError
      | .error .valueError => strFallback next
      | .error e => .error e
    else strFallback next

/-! ## The `OSCMessage` and `OSCBundle` builders -/

/-- The state of an `OSCMessage` builder: the OSC address, the accumulated
type-tag string (initially `","`) and the accumulated argument bytes. -/
structure Msg where
  address : String
  typetags : String
  message : List Byte
  deriving Repr, DecidableEq

/-- One (typehint, argument) pair handed to `OSCMessage.append` (after the
iterable/dict expansion, which recurses into single appends). -/
inductive AppendArg where
  | blob (b : List Byte)
  | time (t : ℚ)
  | val (v : PyVal) (hint : Option Char)

/-- `OSCMessage.clear` / the `__init__` state: type tags `","`, no data. -/
def emptyMsg (addr : String) : Msg := ⟨addr, ",", []⟩

/-- `OSCMessage.append(argument, typehint)` on a single (non-iterable)
argument: typehint `'b'` encodes with `OSCBlob`, `'t'` with `OSCTimeTag`,
anything else goes through `OSCArgument`; the produced tag is pushed onto
`typetags` and the bytes onto `message`. -/
def pushChunk (m : Msg) (tag : Char) (bin : List Byte) : Msg :=
  { m with typetags := m.typetags.push tag, message := m.message ++ bin }

def appendMsg (m : Msg) (a : AppendArg) : Except AErr Msg :=
  match a with
  | .blob b => (OSCBlob b).elim (.error .structError) fun bin =>
      .ok (pushChunk m 'b' bin)
  | .time t => (OSCTimeTag t).elim (.error .structError) fun bin =>
      .ok (pushChunk m 't' bin)
  | .val v h => (OSCArgument v h).map fun p => pushChunk m p.1 p.2

/-- A sequence of `append` calls on a fresh `OSCMessage(addr)` — the normal
form every builder operation (`insert`, `extend`, `__delitem__`,
`__setitem__`, `setItem`, ...) reduces to, since `_reencode` clears the data
and re-appends item by item. -/
def buildMsg (addr : String) (items : List AppendArg) : Except AErr Msg :=
  items.foldlM appendMsg (emptyMsg addr)

/-- `OSCMessage.getBinary()`. -/
def Msg.getBinary (m : Msg) : Option (List Byte) :=
  (OSCString m.address).bind fun a =>
    (OSCString m.typetags).map fun t => a ++ t ++ m.message

/-- The state of an `OSCBundle` builder (its inherited `address` plays no
role in `getBinary` and is omitted). -/
structure Bnd where
  timetag : ℚ
  typetags : String
  message : List Byte
  deriving Repr, DecidableEq

/-- A fresh `OSCBundle` with time tag `t`. -/
def emptyBnd (t : ℚ) : Bnd := ⟨t, ",", []⟩

/-- `OSCBundle.append` with an `OSCMessage` argument (a non-message argument
is first wrapped into an `OSCMessage` by the same method, so this covers
every append): the message's binary is wrapped by `OSCBlob` — which prefixes
the *padded* length — and accumulated. -/
def appendBnd (b : Bnd) (m : Msg) : Option Bnd :=
  m.getBinary.bind fun mb => (OSCBlob mb).map fun blob =>
    { b with typetags := b.typetags.push 'b', message := b.message ++ blob }

/-- The loop of successive `OSCBundle.append` calls. -/
def buildBndGo (b : Bnd) : List Msg → Option Bnd
  | [] => some b
  | m :: ms => (appendBnd b m).bind fun b1 => buildBndGo b1 ms

/-- A sequence of `OSCBundle.append` calls on a fresh `OSCBundle`. -/
def buildBnd (t : ℚ) (ms : List Msg) : Option Bnd :=
  buildBndGo (emptyBnd t) ms

/-- `OSCBundle.getBinary()`. -/
def Bnd.getBinary (b : Bnd) : Option (List Byte) :=
  (OSCString "#bundle").bind fun hdr =>
    (OSCTimeTag b.timetag).map fun tt => hdr ++ tt ++ b.message

/-! ## `decodeOSC` -/

/-- The Python values `decodeOSC` puts in its result list: strings, ints,
floats, `bytes` (from blobs), and nested lists (from bundle elements). -/
inductive DVal where
  | s (v : String)
  | i (v : Int)
  | f (v : ℚ)
  | bytes (v : List Byte)
  | list (v : List DVal)
  deriving Repr

/-- Python `s.startswith(",")`: the first character is a comma. -/
def startsWithComma (s : String) : Bool :=
  match s.data with
  | c :: _ => c = ','
  | [] => false

/-- `table[tag](rest)` — one step of the argument loop of `decodeOSC`:
dispatch on the tag character via the reader table, `KeyError` for an
unregistered tag. -/
def readArg (tag : Char) (rest : List Byte) : Except DErr (DVal × List Byte) :=
  if tag = 'i' then .ok (.i (readInt rest).1, (readInt rest).2)
  else if tag = 'f' then .ok (.f (readFloat rest).1, (readFloat rest).2)
  else if tag = 's' then .ok (.s (readString rest).1, (readString rest).2)
  else if tag = 'b' then (readBlob rest).map fun p => (.bytes p.1, p.2)
  else if tag = 'd' then .ok (.f (readDouble rest).1, (readDouble rest).2)
  else if tag = 't' then (readTimeTag rest).map fun p => (.f p.1, p.2)
  else .error .keyError

/-- The `for tag in typetags[1:]` loop of `decodeOSC`, threading the rest of
the buffer and appending each decoded value. -/
def readArgsLoop (tags : List Char) (rest : List Byte) (acc : List DVal) :
    Except DErr (List DVal) :=
  match tags with
  | [] => .ok acc
  | t :: ts =>
    match readArg t rest with
    | .error e => .error e
    | .ok p => readArgsLoop ts p.2 (acc ++ [p.1])

mutual

/-- `decodeOSC(data)`, with a fuel parameter making the recursion through
bundle elements structural.  Fuel runs out (result `.error .diverge`) only
on inputs where the Python `while` loop never terminates; `decodeOSC` below
always supplies enough fuel for terminating inputs. -/
def decodeOSCF : Nat → List Byte → Except DErr (List DVal)
  | 0, _ => .error .diverge
  | fuel + 1, data =>
    let p := readString data
    let rest := p.2
    let typetags := if startsWithComma p.1 then p.1 else ""
    let address := if startsWithComma p.1 then "" else p.1
    if address = "#bundle" then
      match readTimeTag rest with
      | .error e => .error e
      | .ok q =>
        match bundleLoopF fuel q.2 with
        | .error e => .error e
        | .ok elems => .ok (.s address :: .f q.1 :: elems)
    else if rest.length > 0 then
      let tp : String × List Byte :=
        if typetags.length = 0 then readString rest else (typetags, rest)
      if startsWithComma tp.1 then
        match readArgsLoop (tp.1.data.drop 1) tp.2 [] with
        | .error e => .error e
        | .ok vals => .ok (.s address :: .s tp.1 :: vals)
      else .error .oscErrorRaise
    else .ok []

/-- The `while len(rest) > 0` loop of the `#bundle` branch: read an `int32`
length, recursively decode that many bytes, continue behind them.  When
`0 < len(rest) < 4` the Python loop makes no progress and spins forever
(`_readInt` returns `(0, rest)` unchanged): modelled as `.error .diverge`. -/
def bundleLoopF : Nat → List Byte → Except DErr (List DVal)
  | 0, _ => .error .diverge
  | fuel + 1, rest =>
    if rest.length = 0 then .ok []
    else if rest.length < 4 then .error .diverge
    else
      let p := readInt rest
      match decodeOSCF fuel (pySlice p.2 0 p.1) with
      | .error e => .error e
      | .ok sub =>
        match bundleLoopF fuel (pyDropSlice p.2 p.1) with
        | .error e => .error e
        | .ok elems => .ok (.list sub :: elems)

end

/-- `decodeOSC(data)` with enough fuel for every terminating execution
(every recursive call strictly decreases the buffer length). -/
def decodeOSC (data : List Byte) : Except DErr (List DVal) :=
  decodeOSCF (data.length + 1) data

/-! ## Built messages and bundles as trees

`OSCMessage.append` encodes arguments eagerly, so a built message is its
address together with the *wire form* of each appended argument.  `Arg`
captures the three argument kinds exercised by message building with the
inferred tags (`i`, `f`, `s`); a float argument is represented by the 4
bytes `struct.pack('>f', value)` stored in the message buffer at append
time.  `Elem` is a built `OSCMessage` or (recursively) `OSCBundle`. -/

inductive Arg where
  | aInt (n : Int)
  | aFloat (b0 b1 b2 b3 : Byte)
  | aStr (s : String)

/-- The type tag recorded by `append` for each argument kind. -/
def argTag : Arg → Char
  | .aInt _ => 'i'
  | .aFloat _ _ _ _ => 'f'
  | .aStr _ => 's'

/-- The bytes `append` stores for each argument (`struct.pack('>i', n)`,
the stored float bytes, `OSCString(s)`). -/
def argBin : Arg → Option (List Byte)
  | .aInt n => packInt32 n
  | .aFloat b0 b1 b2 b3 => some [b0, b1, b2, b3]
  | .aStr s => OSCString s

/-- The Python value `decodeOSC` recovers for each argument. -/
def argDVal : Arg → DVal
  | .aInt n => .i n
  | .aFloat b0 b1 b2 b3 => .f (unpackFloat32 [b0, b1, b2, b3])
  | .aStr s => .s s

/-- An element of a bundle: a built message or a nested built bundle. -/
inductive Elem where
  | msg (addr : String) (args : List Arg)
  | bundle (t : ℚ) (elems : List Elem)

/-- The accumulated `typetags` string of a built message. -/
def msgTypetags (args : List Arg) : String := ⟨',' :: args.map argTag⟩

/-- Concatenation of the stored argument bytes of a message. -/
def argsBin : List Arg → Option (List Byte)
  | [] => some []
  | a :: rest =>
    (argBin a).bind fun b => (argsBin rest).map fun bs => b ++ bs

mutual

/-- `getBinary()` of a built element: for a message
`OSCString(address) ++ OSCString(typetags) ++ message`, for a bundle
`OSCString("#bundle") ++ OSCTimeTag(t)` followed by each element's binary
wrapped by `OSCBlob` (as `OSCBundle.append` stored it). -/
def elemBinary : Elem → Option (List Byte)
  | .msg addr args =>
    (OSCString addr).bind fun a =>
      (OSCString (msgTypetags args)).bind fun t =>
        (argsBin args).map fun bins => a ++ t ++ bins
  | .bundle t elems =>
    (OSCString "#bundle").bind fun hdr =>
      (OSCTimeTag t).bind fun tt =>
        (elemsBinary elems).map fun body => hdr ++ tt ++ body

/-- The accumulated `message` buffer of a built bundle: each element's
binary behind its `OSCBlob` length prefix. -/
def elemsBinary : List Elem → Option (List Byte)
  | [] => some []
  | e :: es =>
    (elemBinary e).bind fun bin =>
      (OSCBlob bin).bind fun blob =>
        (elemsBinary es).map fun rest => blob ++ rest

end

/-- The float value `_readTimeTag` recovers from `OSCTimeTag t`. -/
def timeRT (t : ℚ) : ℚ :=
  match (OSCTimeTag t).bind fun bs => (readTimeTag bs).toOption with
  | some p => p.1
  | none => 0

mutual

/-- The Python list `decodeOSC` produces for a built element's binary. -/
def expectedDecode : Elem → List DVal
  | .msg addr args => .s addr :: .s (msgTypetags args) :: args.map argDVal
  | .bundle t elems => .s "#bundle" :: .f (timeRT t) :: expectedElems elems

/-- The decoded sub-lists for a bundle's elements. -/
def expectedElems : List Elem → List DVal
  | [] => []
  | e :: es => .list (expectedDecode e) :: expectedElems es

end

/-- A string is latin-1 encodable and free of NUL characters (so that
`OSCString`/`_readString` round-trip it). -/
def noNulLatin (s : String) : Bool :=
  s.data.all fun c => decide (0 < c.toNat ∧ c.toNat ≤ 255)

/-- A message address that decodes back to itself: NUL-free latin-1, not
starting with a comma (which `decodeOSC` would reinterpret as a type-tag
string) and distinct from the `"#bundle"` literal. -/
def addrOk (a : String) : Bool :=
  noNulLatin a && !startsWithComma a && (a != "#bundle")

/-- Well-formedness of one stored argument: ints fit an `int32` (otherwise
`append` would have raised), strings are NUL-free latin-1, float bytes are
bytes with a finite value (exponent field not 255 — NaN payloads do not
compare equal in Python and infinities have no rational model). -/
def argOk : Arg → Bool
  | .aInt n => decide (-(2 ^ 31) ≤ n ∧ n < 2 ^ 31)
  | .aFloat b0 b1 b2 b3 =>
    decide (b0 ≤ 255 ∧ b1 ≤ 255 ∧ b2 ≤ 255 ∧ b3 ≤ 255) &&
      !(unpackUInt32 [b0, b1, b2, b3] / 2 ^ 23 % 2 ^ 8 == 255)
  | .aStr s => noNulLatin s

mutual

/-- Well-formedness of a built element. -/
def elemOk : Elem → Bool
  | .msg addr args => addrOk addr && args.all argOk
  | .bundle _ elems => elemsOk elems

/-- Well-formedness of a list of built elements. -/
def elemsOk : List Elem → Bool
  | [] => true
  | e :: es => elemOk e && elemsOk es

end

/-! ## Basic facts about the byte-level primitives -/

theorem be4_length (v : Nat) : (be4 v).length = 4 := rfl

theorem beNat_be4 (v : Nat) (h : v < 2 ^ 32) : beNat (be4 v) = v := by
  simp only [be4, beNat, List.foldl]
  omega

theorem take4_be4_append (v : Nat) (tail : List Byte) :
    (be4 v ++ tail).take 4 = be4 v := rfl

theorem drop4_be4_append (v : Nat) (tail : List Byte) :
    (be4 v ++ tail).drop 4 = tail := rfl

theorem unpackUInt32_be4 (v : Nat) (h : v < 2 ^ 32) (tail : List Byte) :
    unpackUInt32 (be4 v ++ tail) = v := by
  rw [unpackUInt32, take4_be4_append, beNat_be4 v h]

theorem packInt32_some (n : Int) (bs : List Byte) (h : packInt32 n = some bs) :
    -(2 ^ 31) ≤ n ∧ n < 2 ^ 31 ∧ bs = be4 (n % 2 ^ 32).toNat := by
  unfold packInt32 at h
  split at h
  · exact ⟨by omega, by omega, by simpa using h.symm⟩
  · exact absurd h (by simp)

theorem take4_be4 (v : Nat) : (be4 v).take 4 = be4 v := rfl

theorem unpackInt32_packInt32 (n : Int) (bs : List Byte)
    (h : packInt32 n = some bs) : unpackInt32 bs = n := by
  obtain ⟨h1, h2, h3⟩ := packInt32_some n bs h
  subst h3
  have hlt : (n % 2 ^ 32).toNat < 2 ^ 32 := by omega
  rw [unpackInt32, unpackUInt32, take4_be4, beNat_be4 _ hlt]
  omega

theorem readInt_enc (n : Int) (bs : List Byte) (h : packInt32 n = some bs)
    (tail : List Byte) : readInt (bs ++ tail) = (n, tail) := by
  obtain ⟨-, -, h3⟩ := packInt32_some n bs h
  have h4 : (bs ++ tail).take 4 = bs := by rw [h3]; exact take4_be4_append _ _
  have h5 : (bs ++ tail).drop 4 = tail := by rw [h3]; exact drop4_be4_append _ _
  rw [readInt, if_neg]
  · rw [h4, h5, unpackInt32_packInt32 n bs h]
  · rw [h3]
    simp [be4]

/-! ## Padding arithmetic -/

theorem oscStringLength_eq (n : Nat) : oscStringLength n = (n + 4) / 4 * 4 := by
  simp only [oscStringLength]

theorem oscStringLength_ge (n : Nat) : n + 1 ≤ oscStringLength n := by
  rw [oscStringLength_eq]
  omega

theorem oscStringLength_le (n : Nat) : oscStringLength n ≤ n + 4 := by
  rw [oscStringLength_eq]
  omega

theorem oscStringLength_mod4 (n : Nat) : oscStringLength n % 4 = 0 := by
  rw [oscStringLength_eq]
  omega

theorem padded4_ge (n : Nat) : n ≤ padded4 n := by
  simp only [padded4]
  omega

theorem padded4_lt (n : Nat) : padded4 n < n + 4 := by
  simp only [padded4]
  omega

theorem padded4_mod4 (n : Nat) : padded4 n % 4 = 0 := by
  simp only [padded4]
  omega

theorem padded4_of_mod4 (n : Nat) (h : n % 4 = 0) : padded4 n = n := by
  simp only [padded4]
  omega

theorem ceil4_coe_succ (n : Nat) : ceil4 ((n : Int) + 1) = (oscStringLength n : Int) := by
  rw [ceil4, oscStringLength_eq, Int.fdiv_eq_ediv _ (by omega)]
  omega

theorem ceil4_coe (n : Nat) (h : n % 4 = 0) : ceil4 (n : Int) = (n : Int) := by
  rw [ceil4, Int.fdiv_eq_ediv _ (by omega)]
  omega

/-! ## Python slicing facts -/

theorem pyIdx_coe (len i : Nat) (h : i ≤ len) : pyIdx len (i : Int) = i := by
  rw [pyIdx, if_neg (by omega), Int.toNat_natCast]
  exact Nat.min_eq_left h

theorem pySlice_front (l r : List Byte) (n : Nat) (h : n ≤ l.length) :
    pySlice (l ++ r) 0 (n : Int) = l.take n := by
  rw [pySlice, pyIdx_coe _ _ (by simp; omega),
    show ((0 : Int) = ((0 : Nat) : Int)) from rfl, pyIdx_coe _ 0 (by omega)]
  rw [List.take_append_of_le_length h, List.drop_zero]

theorem pyDropSlice_exact (l r : List Byte) :
    pyDropSlice (l ++ r) (l.length : Int) = r := by
  rw [pyDropSlice, pyIdx_coe _ _ (by simp)]
  exact List.drop_left l r

/-! ## `OSCString` and `_readString` -/

theorem string_length (s : String) : s.length = s.data.length := rfl

theorem latin1Decode_map (s : String) : latin1Decode (s.data.map Char.toNat) = s := by
  cases s with
  | mk l =>
    simp only [latin1Decode, List.map_map]
    congr 1
    have h : Char.ofNat ∘ Char.toNat = id := funext Char.ofNat_toNat
    rw [h, List.map_id]

theorem OSCString_eq (s : String) (h : ∀ c ∈ s.data, c.toNat ≤ 255) :
    OSCString s = some (s.data.map Char.toNat ++
      List.replicate (oscStringLength s.data.length - s.data.length) 0) := by
  rw [OSCString, latin1Encode, if_pos h, Option.map_some']
  rw [string_length, List.length_map]

theorem OSCString_some (s : String) (bs : List Byte) (h : OSCString s = some bs) :
    (∀ c ∈ s.data, c.toNat ≤ 255) ∧
      bs = s.data.map Char.toNat ++
        List.replicate (oscStringLength s.data.length - s.data.length) 0 := by
  rw [OSCString, latin1Encode] at h
  split at h
  · refine ⟨by assumption, ?_⟩
    rw [Option.map_some', Option.some.injEq] at h
    rw [← h, string_length, List.length_map]
  · exact absurd h (by simp)

theorem OSCString_length (s : String) (bs : List Byte) (h : OSCString s = some bs) :
    bs.length = oscStringLength s.data.length := by
  obtain ⟨-, h2⟩ := OSCString_some s bs h
  rw [h2, List.length_append, List.length_map, List.length_replicate]
  have := oscStringLength_ge s.data.length
  omega

theorem noNulLatin_iff (s : String) :
    noNulLatin s = true ↔ ∀ c ∈ s.data, 0 < c.toNat ∧ c.toNat ≤ 255 := by
  simp [noNulLatin]

theorem findIdx0_append (l r : List Byte) (h : ∀ b ∈ l, b ≠ 0) (i : Nat) :
    List.findIdx? (· == 0) (l ++ 0 :: r) i = some (i + l.length) := by
  induction l generalizing i with
  | nil => simp [List.findIdx?_cons]
  | cons a l ih =>
    have ha : a ≠ 0 := h a (by simp)
    simp only [List.cons_append, List.findIdx?_cons, beq_iff_eq, ha, if_false]
    rw [ih (fun b hb => h b (by simp [hb])) (i + 1)]
    congr 1
    simp only [List.length_cons]
    omega

theorem pyFind0_append (l r : List Byte) (h : ∀ b ∈ l, b ≠ 0) :
    pyFind0 (l ++ 0 :: r) = (l.length : Int) := by
  rw [pyFind0, findIdx0_append l r h 0]
  simp

/-- The central `_readString` fact: reading an `OSCString`-encoded NUL-free
string from the front of a buffer recovers the string and the rest. -/
theorem readString_enc (s : String) (bs : List Byte) (hs : noNulLatin s = true)
    (h : OSCString s = some bs) (tail : List Byte) :
    readString (bs ++ tail) = (s, tail) := by
  have hlat : ∀ c ∈ s.data, c.toNat ≤ 255 :=
    fun c hc => ((noNulLatin_iff s).1 hs c hc).2
  have hnz : ∀ b ∈ s.data.map Char.toNat, b ≠ 0 := by
    intro b hb
    obtain ⟨c, hc, rfl⟩ := List.mem_map.1 hb
    have := ((noNulLatin_iff s).1 hs c hc).1
    omega
  obtain ⟨-, hbs⟩ := OSCString_some s bs h
  set len := s.data.length with hlen
  set pad := oscStringLength len - len with hpad
  have hpad1 : 1 ≤ pad := by
    have := oscStringLength_ge len
    omega
  have hrep : List.replicate pad (0 : Byte) = 0 :: List.replicate (pad - 1) 0 := by
    conv_lhs => rw [show pad = (pad - 1) + 1 by omega]
    rw [List.replicate_succ]
  have hsplit : bs ++ tail =
      s.data.map Char.toNat ++ (0 :: (List.replicate (pad - 1) 0 ++ tail)) := by
    rw [hbs, hrep]
    simp
  have hlenmap : (s.data.map Char.toNat).length = len := by
    rw [List.length_map]
  rw [readString, hsplit, pyFind0_append _ _ hnz, hlenmap, Prod.mk.injEq]
  refine ⟨?_, ?_⟩
  · rw [pySlice_front _ _ len (by rw [hlenmap])]
    rw [← hlenmap, List.take_length, latin1Decode_map]
  · rw [ceil4_coe_succ len]
    have hfull : s.data.map Char.toNat ++ (0 :: (List.replicate (pad - 1) 0 ++ tail)) =
        (s.data.map Char.toNat ++ List.replicate pad 0) ++ tail := by
      rw [hrep]
      simp
    have hlenfull : (s.data.map Char.toNat ++ List.replicate pad 0).length =
        oscStringLength len := by
      simp only [List.length_append, List.length_replicate, hlenmap]
      have := oscStringLength_ge len
      omega
    rw [hfull, ← hlenfull, pyDropSlice_exact]

/-! ## `OSCTimeTag` and `_readTimeTag` -/

theorem packUInt32_some (n : Int) (bs : List Byte) (h : packUInt32 n = some bs) :
    0 ≤ n ∧ n < 2 ^ 32 ∧ bs = be4 n.toNat := by
  unfold packUInt32 at h
  split at h
  · exact ⟨by omega, by omega, by simpa using h.symm⟩
  · exact absurd h (by simp)

theorem OSCTimeTag_length (t : ℚ) (bs : List Byte) (h : OSCTimeTag t = some bs) :
    bs.length = 8 := by
  simp only [OSCTimeTag] at h
  split at h
  · split at h
    case _ hi lo hhi hlo =>
      obtain ⟨-, -, h3⟩ := packUInt32_some _ _ hhi
      obtain ⟨-, -, h4⟩ := packUInt32_some _ _ hlo
      cases h
      rw [h3, h4]
      rfl
    case _ => exact absurd h (by simp)
  · cases h
    rfl

theorem readTimeTag_append (bs tail : List Byte) (h8 : bs.length = 8) :
    readTimeTag (bs ++ tail) = (readTimeTag bs).map fun p => (p.1, tail) := by
  have hc1 : ¬((bs ++ tail).length < 8) := by
    rw [List.length_append]
    omega
  have hc2 : ¬(bs.length < 8) := by omega
  rw [readTimeTag, readTimeTag, if_neg hc1, if_neg hc2]
  have h1 : (bs ++ tail).take 4 = bs.take 4 := List.take_append_of_le_length (by omega)
  have h2 : (bs ++ tail).drop 4 = bs.drop 4 ++ tail :=
    List.drop_append_of_le_length (by omega)
  have h3 : (bs.drop 4 ++ tail).take 4 = (bs.drop 4).take 4 :=
    List.take_append_of_le_length (by simp [h8])
  have h4 : (bs ++ tail).drop 8 = bs.drop 8 ++ tail :=
    List.drop_append_of_le_length (by omega)
  have h5 : bs.drop 8 = [] := List.drop_eq_nil_of_le (by omega)
  rw [h1, h2, h3, h4, h5]
  simp [Except.map]

theorem readTimeTag_enc (t : ℚ) (bs : List Byte) (h : OSCTimeTag t = some bs)
    (tail : List Byte) : readTimeTag (bs ++ tail) = .ok (timeRT t, tail) := by
  have h8 := OSCTimeTag_length t bs h
  have hne : ¬bs.length < 8 := by omega
  rw [readTimeTag_append bs tail h8, timeRT, h, Option.some_bind]
  rw [readTimeTag, if_neg hne]
  have h5 : bs.drop 8 = [] := List.drop_eq_nil_of_le (by omega)
  rw [h5]
  simp [Except.map, Except.toOption]

/-! ## `OSCBlob` and `_readBlob` -/

theorem OSCBlob_some (b enc : List Byte) (h : OSCBlob b = some enc) :
    padded4 b.length < 2 ^ 31 ∧
      enc = be4 (padded4 b.length) ++
        (b ++ List.replicate (padded4 b.length - b.length) 0) := by
  rw [OSCBlob] at h
  cases hp : packInt32 (padded4 b.length) with
  | none => rw [hp] at h; exact absurd h (by simp)
  | some pre =>
    rw [hp, Option.map_some', Option.some.injEq] at h
    obtain ⟨h1, h2, h3⟩ := packInt32_some _ _ hp
    have hlt : padded4 b.length < 2 ^ 31 := by exact_mod_cast h2
    refine ⟨hlt, ?_⟩
    have hmod : (((padded4 b.length : Int)) % 2 ^ 32).toNat = padded4 b.length := by
      omega
    rw [← h, h3, hmod, List.append_assoc]

theorem pySlice_middle (l r : List Byte) (n : Nat) (h : n ≤ r.length) :
    pySlice (l ++ r) (l.length : Int) ((l.length : Int) + n) = r.take n := by
  rw [pySlice]
  rw [show (l.length : Int) + n = ((l.length + n : Nat) : Int) by push_cast; ring]
  rw [pyIdx_coe _ _ (by rw [List.length_append]; omega),
    pyIdx_coe _ _ (by rw [List.length_append]; omega)]
  rw [List.take_append, List.drop_left]

theorem pyDropSlice_all (l : List Byte) : pyDropSlice l (l.length : Int) = [] := by
  rw [pyDropSlice, pyIdx_coe _ _ (le_refl _)]
  exact List.drop_eq_nil_of_le (le_refl _)

theorem readBlob_enc (b enc : List Byte) (h : OSCBlob b = some enc) :
    readBlob enc =
      .ok (b ++ List.replicate (padded4 b.length - b.length) 0, []) := by
  obtain ⟨hlt, henc⟩ := OSCBlob_some b enc h
  have hge := padded4_ge b.length
  set P := padded4 b.length with hP
  set payload := b ++ List.replicate (P - b.length) 0 with hpay
  have hpl : payload.length = P := by
    rw [hpay, List.length_append, List.length_replicate]
    omega
  have henclen : enc.length = 4 + P := by
    rw [henc, List.length_append, hpl]
    rfl
  rw [readBlob, if_neg (by omega)]
  show Except.ok (pySlice enc 4 (unpackInt32 (enc.take 4) + 4),
      pyDropSlice enc (ceil4 (unpackInt32 (enc.take 4)) + 4)) = _
  have h1 : enc.take 4 = be4 P := by
    rw [henc]
    exact take4_be4_append _ _
  have hup : unpackInt32 (enc.take 4) = (P : Int) := by
    rw [h1, unpackInt32, unpackUInt32, take4_be4, beNat_be4 _ (by omega),
      if_pos (by omega)]
  rw [hup]
  clear hup
  have hsl : pySlice enc 4 ((P : Int) + 4) = payload := by
    have h4 : ((4 : Int)) = ((be4 P).length : Int) := by simp [be4_length]
    rw [henc, show (P : Int) + 4 = ((be4 P).length : Int) + P by simp [be4_length]; ring, h4,
      pySlice_middle _ _ P (by omega), ← hpl, List.take_length]
  have hdr : pyDropSlice enc (ceil4 (P : Int) + 4) = [] := by
    rw [ceil4_coe P (by rw [hP]; exact padded4_mod4 _)]
    rw [show (P : Int) + 4 = (enc.length : Int) by rw [henclen]; push_cast; ring]
    exact pyDropSlice_all enc
  rw [hsl, hdr]

/-! ## Lengths of encoded chunks: everything `append` stores is a multiple
of 4 bytes long -/

theorem OSCString_length_mod4 (s : String) (bs : List Byte)
    (h : OSCString s = some bs) : bs.length % 4 = 0 := by
  rw [OSCString_length s bs h]
  exact oscStringLength_mod4 _

theorem OSCBlob_length (b enc : List Byte) (h : OSCBlob b = some enc) :
    enc.length = 4 + padded4 b.length := by
  obtain ⟨-, henc⟩ := OSCBlob_some b enc h
  have := padded4_ge b.length
  rw [henc, List.length_append, List.length_append, List.length_replicate, be4_length]
  omega

theorem OSCBlob_length_mod4 (b enc : List Byte) (h : OSCBlob b = some enc) :
    enc.length % 4 = 0 := by
  rw [OSCBlob_length b enc h]
  have := padded4_mod4 b.length
  omega

theorem packFloat32_length (q : ℚ) (bs : List Byte) (h : packFloat32 q = some bs) :
    bs.length = 4 := by
  rw [packFloat32] at h
  cases hb : fpBits 23 8 q with
  | none => rw [hb] at h; exact absurd h (by simp)
  | some v => rw [hb, Option.map_some', Option.some.injEq] at h; rw [← h]; rfl

theorem packFloat64_length (q : ℚ) (bs : List Byte) (h : packFloat64 q = some bs) :
    bs.length = 8 := by
  rw [packFloat64] at h
  cases hb : fpBits 52 11 q with
  | none => rw [hb] at h; exact absurd h (by simp)
  | some v => rw [hb, Option.map_some', Option.some.injEq] at h; rw [← h]; rfl

theorem strFallback_mod4 (w : PyVal) (tag : Char) (bin : List Byte)
    (h : strFallback w = .ok (tag, bin)) : bin.length % 4 = 0 := by
  cases w with
  | str s =>
    simp only [strFallback] at h
    cases hos : OSCString s with
    | none => rw [hos] at h; exact absurd h (by simp)
    | some bs =>
      rw [hos] at h
      cases h
      exact OSCString_length_mod4 s _ hos
  | int n => simp only [strFallback] at h; exact absurd h (by simp)
  | float q => simp only [strFallback] at h; exact absurd h (by simp)

theorem OSCArgument_mod4 (v : PyVal) (th : Option Char) (tag : Char)
    (bin : List Byte) (h : OSCArgument v th = .ok (tag, bin)) :
    bin.length % 4 = 0 := by
  cases th with
  | none =>
    cases v with
    | float q =>
      simp only [OSCArgument] at h
      cases hp : packFloat32 q with
      | none => rw [hp] at h; exact absurd h (by simp)
      | some bs =>
        rw [hp] at h
        cases h
        rw [packFloat32_length q _ hp]
    | int n =>
      simp only [OSCArgument] at h
      cases hp : packInt32 n with
      | none => rw [hp] at h; exact absurd h (by simp)
      | some bs =>
        rw [hp] at h
        cases h
        obtain ⟨-, -, h3⟩ := packInt32_some n _ hp
        rw [h3, be4_length]
    | str s =>
      simp only [OSCArgument] at h
      cases hos : OSCString s with
      | none => rw [hos] at h; exact absurd h (by simp)
      | some bs =>
        rw [hos] at h
        cases h
        exact OSCString_length_mod4 s _ hos
  | some c =>
    by_cases hd : c = 'd'
    · subst hd
      cases hpf : pyFloat v with
      | ok q =>
        simp only [OSCArgument, hpf, if_true, eq_self_iff_true] at h
        cases hp : packFloat64 q with
        | none => simp [hp] at h
        | some bs =>
          simp [hp] at h
          obtain ⟨-, h2⟩ := h
          rw [← h2]
          rw [packFloat64_length q bs hp]
      | error e =>
        cases e <;> simp only [OSCArgument, hpf, if_true, eq_self_iff_true] at h <;>
          first
            | exact strFallback_mod4 v tag bin h
            | exact absurd h (by simp)
    · by_cases hf : c = 'f'
      · subst hf
        cases hpf : pyFloat v with
        | ok q =>
          simp only [OSCArgument, hpf, if_true, eq_self_iff_true, if_neg hd] at h
          cases hp : packFloat32 q with
          | none => simp [hp] at h
          | some bs =>
            simp [hp] at h
            obtain ⟨-, h2⟩ := h
            rw [← h2]
            rw [packFloat32_length q bs hp]
        | error e =>
          cases e <;>
            simp only [OSCArgument, hpf, if_true, eq_self_iff_true, if_neg hd] at h <;>
            first
              | exact strFallback_mod4 v tag bin h
              | exact absurd h (by simp)
      · by_cases hi : c = 'i'
        · subst hi
          cases hpf : pyInt v with
          | ok n =>
            simp only [OSCArgument, hpf, if_true, eq_self_iff_true,
              if_neg hd, if_neg hf] at h
            cases hp : packInt32 n with
            | none => simp [hp] at h
            | some bs =>
              simp [hp] at h
              obtain ⟨-, h2⟩ := h
              rw [← h2]
              obtain ⟨-, -, h3⟩ := packInt32_some n _ hp
              rw [h3, be4_length]
          | error e =>
            cases e <;>
              simp only [OSCArgument, hpf, if_true, eq_self_iff_true,
                if_neg hd, if_neg hf] at h <;>
              first
                | exact strFallback_mod4 v tag bin h
                | exact absurd h (by simp)
        · simp only [OSCArgument, if_neg hd, if_neg hf, if_neg hi] at h
          exact strFallback_mod4 v tag bin h

theorem appendMsg_mod4 (m : Msg) (a : AppendArg) (m2 : Msg)
    (h : appendMsg m a = .ok m2) (hm : m.message.length % 4 = 0) :
    m2.message.length % 4 = 0 := by
  cases a with
  | blob b =>
    unfold appendMsg at h
    dsimp only at h
    cases hb : OSCBlob b with
    | none =>
      rw [hb] at h
      simp only [Option.elim] at h
      exact absurd h (by simp)
    | some bin =>
      rw [hb] at h
      simp only [Option.elim, Except.ok.injEq] at h
      have := OSCBlob_length_mod4 b bin hb
      rw [← h]
      simp only [pushChunk, List.length_append]
      omega
  | time t =>
    cases hb : OSCTimeTag t with
    | none =>
      simp only [appendMsg, hb, Option.elim] at h
      exact absurd h (by simp)
    | some bin =>
      simp only [appendMsg, hb, Option.elim, Except.ok.injEq] at h
      have := OSCTimeTag_length t bin hb
      rw [← h]
      simp only [pushChunk, List.length_append]
      omega
  | val v th =>
    cases ha : OSCArgument v th with
    | error e =>
      simp only [appendMsg, ha, Except.map] at h
      exact absurd h (by simp)
    | ok p =>
      simp only [appendMsg, ha, Except.map, Except.ok.injEq] at h
      have := OSCArgument_mod4 v th p.1 p.2 ha
      rw [← h]
      simp only [pushChunk, List.length_append]
      omega

theorem foldl_appendMsg_mod4 (items : List AppendArg) :
    ∀ m0 m : Msg, m0.message.length % 4 = 0 →
      List.foldlM appendMsg m0 items = .ok m → m.message.length % 4 = 0 := by
  induction items with
  | nil =>
    intro m0 m h0 h
    rw [List.foldlM_nil] at h
    cases h
    exact h0
  | cons a rest ih =>
    intro m0 m h0 h
    rw [List.foldlM_cons] at h
    cases happ : appendMsg m0 a with
    | error e => rw [happ] at h; exact absurd h (by simp [Bind.bind, Except.bind])
    | ok m1 =>
      rw [happ] at h
      exact ih m1 m (appendMsg_mod4 m0 a m1 happ h0) h

theorem buildMsg_mod4 (addr : String) (items : List AppendArg) (m : Msg)
    (h : buildMsg addr items = .ok m) : m.message.length % 4 = 0 := by
  exact foldl_appendMsg_mod4 items (emptyMsg addr) m (by rfl) h

theorem getBinary_mod4 (m : Msg) (bin : List Byte)
    (hm : m.message.length % 4 = 0) (h : m.getBinary = some bin) :
    bin.length % 4 = 0 := by
  rw [Msg.getBinary] at h
  cases ha : OSCString m.address with
  | none => rw [ha] at h; exact absurd h (by simp)
  | some ab =>
    rw [ha] at h
    simp only [Option.some_bind] at h
    cases ht : OSCString m.typetags with
    | none =>
      rw [ht] at h
      exact absurd h (by simp)
    | some tb =>
      rw [ht] at h
      simp only [Option.map_some', Option.some.injEq] at h
      have hab := OSCString_length_mod4 _ _ ha
      have htb := OSCString_length_mod4 _ _ ht
      rw [← h]
      simp only [List.length_append]
      omega

theorem appendBnd_mod4 (b : Bnd) (m : Msg) (b2 : Bnd)
    (h : appendBnd b m = some b2) (hb : b.message.length % 4 = 0) :
    b2.message.length % 4 = 0 := by
  simp only [appendBnd, Option.bind_eq_some, Option.map_eq_some'] at h
  obtain ⟨mb, hg, blob, hob, hrec⟩ := h
  have := OSCBlob_length_mod4 mb blob hob
  rw [← hrec]
  simp only [List.length_append]
  omega

theorem buildBndGo_mod4 (ms : List Msg) :
    ∀ b0 b : Bnd, b0.message.length % 4 = 0 →
      buildBndGo b0 ms = some b → b.message.length % 4 = 0 := by
  induction ms with
  | nil =>
    intro b0 b h0 h
    rw [buildBndGo] at h
    cases h
    exact h0
  | cons m rest ih =>
    intro b0 b h0 h
    rw [buildBndGo] at h
    cases happ : appendBnd b0 m with
    | none => rw [happ] at h; exact absurd h (by simp)
    | some b1 =>
      rw [happ] at h
      simp only [Option.some_bind] at h
      exact ih b1 b (appendBnd_mod4 b0 m b1 happ h0) h

theorem buildBnd_mod4 (t : ℚ) (ms : List Msg) (b : Bnd)
    (h : buildBnd t ms = some b) : b.message.length % 4 = 0 := by
  exact buildBndGo_mod4 ms (emptyBnd t) b (by rfl) h

theorem OSCString_bundle : OSCString "#bundle" =
    some [35, 98, 117, 110, 100, 108, 101, 0] := by decide

theorem bndGetBinary_mod4 (b : Bnd) (bin : List Byte)
    (hb : b.message.length % 4 = 0) (h : b.getBinary = some bin) :
    bin.length % 4 = 0 := by
  rw [Bnd.getBinary, OSCString_bundle] at h
  simp only [Option.some_bind] at h
  cases ht : OSCTimeTag b.timetag with
  | none => rw [ht] at h; exact absurd h (by simp)
  | some tt =>
    rw [ht] at h
    simp only [Option.map_some', Option.some.injEq] at h
    have h8 := OSCTimeTag_length _ _ ht
    rw [← h]
    have hl : ([35, 98, 117, 110, 100, 108, 101, 0] : List Byte).length = 8 := rfl
    simp only [List.length_append, h8, hl]
    omega

/-- When the wrapped payload is already a multiple of 4 bytes long — as
every `getBinary()` result is — `OSCBlob` adds no padding and its 32-bit
prefix is exactly the payload's length. -/
theorem OSCBlob_exact (bin : List Byte) (h4 : bin.length % 4 = 0)
    (hlt : bin.length < 2 ^ 31) :
    OSCBlob bin = some (be4 bin.length ++ bin) := by
  rw [OSCBlob, padded4_of_mod4 _ h4, packInt32,
    if_pos ⟨by omega, by exact_mod_cast hlt⟩, Option.map_some']
  have hmod : (((bin.length : Int)) % 2 ^ 32).toNat = bin.length := by omega
  rw [hmod]
  simp

/-! ## The argument loop of `decodeOSC` on encoded arguments -/

theorem oscStringLength_pos (n : Nat) : 4 ≤ oscStringLength n := by
  rw [oscStringLength_eq]
  omega

theorem msgTypetags_data (args : List Arg) :
    (msgTypetags args).data = ',' :: args.map argTag := rfl

theorem noNulLatin_msgTypetags (args : List Arg) :
    noNulLatin (msgTypetags args) = true := by
  rw [noNulLatin_iff]
  intro c hc
  rw [msgTypetags_data] at hc
  rcases List.mem_cons.1 hc with h | h
  · subst h
    decide
  · obtain ⟨a, -, rfl⟩ := List.mem_map.1 h
    cases a <;> simp only [argTag] <;> decide

theorem startsWithComma_msgTypetags (args : List Arg) :
    startsWithComma (msgTypetags args) = true := rfl

theorem readArg_i (n : Int) (bs : List Byte) (h : packInt32 n = some bs)
    (tail : List Byte) : readArg 'i' (bs ++ tail) = .ok (.i n, tail) := by
  rw [readArg, if_pos rfl, readInt_enc n bs h tail]

theorem readArg_f (b0 b1 b2 b3 : Byte) (tail : List Byte) :
    readArg 'f' ([b0, b1, b2, b3] ++ tail) =
      .ok (.f (unpackFloat32 [b0, b1, b2, b3]), tail) := by
  rw [readArg, if_neg (by decide), if_pos rfl]
  have hrf : readFloat ([b0, b1, b2, b3] ++ tail) =
      (unpackFloat32 [b0, b1, b2, b3], tail) := by
    rw [readFloat, if_neg (by simp)]
    rfl
  rw [hrf]

theorem readArg_s (s : String) (bs : List Byte) (hs : noNulLatin s = true)
    (h : OSCString s = some bs) (tail : List Byte) :
    readArg 's' (bs ++ tail) = .ok (.s s, tail) := by
  rw [readArg, if_neg (by decide), if_neg (by decide), if_pos rfl,
    readString_enc s bs hs h tail]

/-- One encoded argument at the front of the buffer is decoded to its
expected value by the tag dispatch. -/
theorem readArg_enc (a : Arg) (bs : List Byte) (hok : argOk a = true)
    (h : argBin a = some bs) (tail : List Byte) :
    readArg (argTag a) (bs ++ tail) = .ok (argDVal a, tail) := by
  cases a with
  | aInt n => exact readArg_i n bs h tail
  | aFloat b0 b1 b2 b3 =>
    rw [argBin] at h
    cases h
    exact readArg_f b0 b1 b2 b3 tail
  | aStr s =>
    rw [argOk] at hok
    exact readArg_s s bs hok h tail

/-- The `for tag in typetags[1:]` loop decodes a concatenation of encoded
arguments into the expected value list. -/
theorem readArgsLoop_enc (args : List Arg) :
    ∀ bs acc, (∀ a ∈ args, argOk a = true) → argsBin args = some bs →
      readArgsLoop (args.map argTag) bs acc = .ok (acc ++ args.map argDVal) := by
  induction args with
  | nil =>
    intro bs acc hok hb
    rw [argsBin] at hb
    cases hb
    simp [readArgsLoop]
  | cons a rest ih =>
    intro bs acc hok hb
    simp only [argsBin, Option.bind_eq_some, Option.map_eq_some'] at hb
    obtain ⟨b1, hb1, brest, hbrest, hcat⟩ := hb
    have hread : readArg (argTag a) (b1 ++ brest) = .ok (argDVal a, brest) :=
      readArg_enc a b1 (hok a (by simp)) hb1 brest
    rw [← hcat, List.map_cons, readArgsLoop]
    simp only [hread]
    rw [ih brest (acc ++ [argDVal a]) (fun x hx => hok x (by simp [hx])) hbrest]
    simp

/-! ## Every element binary is a multiple of 4 bytes long -/

theorem argBin_mod4 (a : Arg) (bs : List Byte) (h : argBin a = some bs) :
    bs.length % 4 = 0 := by
  cases a with
  | aInt n =>
    obtain ⟨-, -, h3⟩ := packInt32_some n bs h
    rw [h3, be4_length]
  | aFloat b0 b1 b2 b3 =>
    rw [argBin] at h
    cases h
    simp
  | aStr s => exact OSCString_length_mod4 s bs h

theorem argsBin_mod4 (args : List Arg) :
    ∀ bs, argsBin args = some bs → bs.length % 4 = 0 := by
  induction args with
  | nil =>
    intro bs h
    rw [argsBin] at h
    cases h
    rfl
  | cons a rest ih =>
    intro bs h
    simp only [argsBin, Option.bind_eq_some, Option.map_eq_some'] at h
    obtain ⟨b1, hb1, brest, hbrest, hcat⟩ := h
    have h1 := argBin_mod4 a b1 hb1
    have h2 := ih brest hbrest
    rw [← hcat, List.length_append]
    omega

theorem elemsBinary_mod4 (es : List Elem) :
    ∀ body, elemsBinary es = some body → body.length % 4 = 0 := by
  induction es with
  | nil =>
    intro body h
    rw [elemsBinary] at h
    cases h
    rfl
  | cons e es2 ih =>
    intro body h
    simp only [elemsBinary, Option.bind_eq_some, Option.map_eq_some'] at h
    obtain ⟨bin, hbin, blob, hblob, rest2, hrest2, hcat⟩ := h
    have h1 := OSCBlob_length_mod4 bin blob hblob
    have h2 := ih rest2 hrest2
    rw [← hcat, List.length_append]
    omega

theorem elemBinary_mod4 (e : Elem) (bin : List Byte)
    (h : elemBinary e = some bin) : bin.length % 4 = 0 := by
  cases e with
  | msg addr args =>
    simp only [elemBinary, Option.bind_eq_some, Option.map_eq_some'] at h
    obtain ⟨ab, hab, tb, htb, abins, habins, hcat⟩ := h
    have h1 := OSCString_length_mod4 _ _ hab
    have h2 := OSCString_length_mod4 _ _ htb
    have h3 := argsBin_mod4 args abins habins
    rw [← hcat]
    simp only [List.length_append]
    omega
  | bundle t elems =>
    simp only [elemBinary, Option.bind_eq_some, Option.map_eq_some',
      OSCString_bundle, Option.some.injEq] at h
    obtain ⟨hdr, hhdr, tt, htt, body, hbody, hcat⟩ := h
    have h2 := OSCTimeTag_length t tt htt
    have h3 := elemsBinary_mod4 elems body hbody
    rw [← hcat, ← hhdr]
    simp only [List.length_append, h2]
    have : ([35, 98, 117, 110, 100, 108, 101, 0] : List Byte).length = 8 := rfl
    omega

/-! ## `decodeOSC` on an encoded message -/

theorem decodeF_msg (fuel : Nat) (addr : String) (args : List Arg)
    (bin : List Byte) (hok : elemOk (.msg addr args) = true)
    (henc : elemBinary (.msg addr args) = some bin) :
    decodeOSCF (fuel + 1) bin = .ok (expectedDecode (.msg addr args)) := by
  simp only [elemBinary, Option.bind_eq_some, Option.map_eq_some'] at henc
  obtain ⟨ab, hab, tb, htb, abins, habins, hcat⟩ := henc
  simp only [elemOk, addrOk, Bool.and_eq_true, Bool.not_eq_true',
    bne_iff_ne, ne_eq, List.all_eq_true] at hok
  obtain ⟨⟨⟨hnn, hswc⟩, hne⟩, hargs⟩ := hok
  have hbin : bin = ab ++ (tb ++ abins) := by rw [← hcat, List.append_assoc]
  subst hbin
  have hrs : readString (ab ++ (tb ++ abins)) = (addr, tb ++ abins) :=
    readString_enc addr ab hnn hab _
  have htblen := OSCString_length _ _ htb
  have hpos : 0 < (tb ++ abins).length := by
    rw [List.length_append, htblen]
    have := oscStringLength_pos (msgTypetags args).data.length
    omega
  have hrs2 : readString (tb ++ abins) = (msgTypetags args, abins) :=
    readString_enc _ tb (noNulLatin_msgTypetags args) htb _
  have hloop : readArgsLoop (args.map argTag) abins [] =
      .ok ([] ++ args.map argDVal) :=
    readArgsLoop_enc args abins [] hargs habins
  have hge := oscStringLength_pos (msgTypetags args).data.length
  rw [decodeOSCF]
  simp only [hrs, hswc, Bool.false_eq_true, if_false, hne, if_neg,
    String.length, hrs2, startsWithComma_msgTypetags, if_true,
    msgTypetags_data, hloop, expectedDecode]
  rw [if_pos hpos]
  simp only [List.length_nil, eq_self_iff_true, if_true]
  rw [if_pos (startsWithComma_msgTypetags args)]
  simp only [msgTypetags_data, List.drop_succ_cons, List.drop_zero, hloop,
    List.nil_append]

/-! ## `decodeOSC` on an encoded bundle -/

theorem packInt32_coe (n : Nat) (h : n < 2 ^ 31) :
    packInt32 (n : Int) = some (be4 n) := by
  rw [packInt32, if_pos ⟨by omega, by exact_mod_cast h⟩]
  have hm : (((n : Int)) % 2 ^ 32).toNat = n := by omega
  rw [hm]

/-- The `#bundle` branch of `decodeOSC` on an encoded bundle, given that the
element loop succeeds on the body. -/
theorem decodeF_bundle (fuel : Nat) (t : ℚ) (bin tt body : List Byte)
    (elemsD : List DVal)
    (htt : OSCTimeTag t = some tt)
    (hbin : bin = [35, 98, 117, 110, 100, 108, 101, 0] ++ (tt ++ body))
    (hloop : bundleLoopF fuel body = .ok elemsD) :
    decodeOSCF (fuel + 1) bin =
      .ok (.s "#bundle" :: .f (timeRT t) :: elemsD) := by
  subst hbin
  have hrs : readString ([35, 98, 117, 110, 100, 108, 101, 0] ++ (tt ++ body)) =
      ("#bundle", tt ++ body) :=
    readString_enc "#bundle" _ (by decide) OSCString_bundle _
  have hrt : readTimeTag (tt ++ body) = .ok (timeRT t, body) :=
    readTimeTag_enc t tt htt body
  have hsw : startsWithComma "#bundle" = false := rfl
  rw [decodeOSCF]
  simp only [hrs, hsw, Bool.false_eq_true, if_false, eq_self_iff_true, if_true,
    hrt, hloop]

/-- One pass of the `while len(rest) > 0` element loop over a stored blob. -/
theorem bundleLoopF_cons_step (fuel : Nat) (bin rest2 : List Byte)
    (subD elemsD : List DVal)
    (h4 : bin.length % 4 = 0) (hlt : bin.length < 2 ^ 31)
    (hsub : decodeOSCF fuel bin = .ok subD)
    (hrest : bundleLoopF fuel rest2 = .ok elemsD) :
    bundleLoopF (fuel + 1) ((be4 bin.length ++ bin) ++ rest2) =
      .ok (.list subD :: elemsD) := by
  have hlen : ((be4 bin.length ++ bin) ++ rest2).length =
      4 + (bin.length + rest2.length) := by
    rw [List.length_append, List.length_append, be4_length]
    omega
  have hri : readInt ((be4 bin.length ++ bin) ++ rest2) =
      ((bin.length : Int), bin ++ rest2) := by
    rw [List.append_assoc]
    exact readInt_enc _ _ (packInt32_coe _ hlt) _
  have hps : pySlice (bin ++ rest2) 0 ((bin.length : Int)) = bin := by
    rw [show ((0 : Int)) = ((0 : Nat) : Int) from rfl]
    have := pySlice_front bin rest2 bin.length (le_refl _)
    rw [show pySlice (bin ++ rest2) ((0 : Nat) : Int) ((bin.length : Int)) =
      pySlice (bin ++ rest2) 0 ((bin.length : Int)) from rfl]
    rw [this, List.take_length]
  have hpd := pyDropSlice_exact bin rest2
  rw [bundleLoopF]
  rw [if_neg (by rw [hlen]; omega), if_neg (by rw [hlen]; omega)]
  simp only [hri, hps, hpd, hsub, hrest]

/-- Joint round-trip statement for elements and element lists, by strong
induction on the fuel: a well-formed built element whose binary is shorter
than the fuel decodes to its expected value list, and a well-formed element
list decodes through the bundle loop to its expected sub-lists. -/
theorem decodeOSCF_elem : ∀ fuel : Nat,
    (∀ e bin, elemOk e = true → elemBinary e = some bin →
        bin.length < fuel → decodeOSCF fuel bin = .ok (expectedDecode e)) ∧
    (∀ es body, elemsOk es = true → elemsBinary es = some body →
        body.length < fuel → bundleLoopF fuel body = .ok (expectedElems es)) := by
  intro fuel
  induction fuel using Nat.strong_induction_on with
  | _ fuel ih =>
    cases fuel with
    | zero =>
      exact ⟨fun e bin _ _ h => absurd h (by omega),
        fun es body _ _ h => absurd h (by omega)⟩
    | succ f =>
      obtain ⟨ihd, ihl⟩ := ih f (by omega)
      constructor
      · intro e bin hok henc hfuel
        cases e with
        | msg addr args => exact decodeF_msg f addr args bin hok henc
        | bundle t elems =>
          have henc2 := henc
          simp only [elemBinary, Option.bind_eq_some, Option.map_eq_some',
            OSCString_bundle, Option.some.injEq] at henc2
          obtain ⟨hdr, hhdr, tt, htt, body, hbody, hcat⟩ := henc2
          have hok2 : elemsOk elems = true := by
            rw [elemOk] at hok
            exact hok
          have htt8 := OSCTimeTag_length t tt htt
          have hlen : bin.length = 16 + body.length := by
            rw [← hcat, ← hhdr, List.length_append, List.length_append, htt8]
            have h8 : ([35, 98, 117, 110, 100, 108, 101, 0] :
                List Byte).length = 8 := rfl
            omega
          have hloop := ihl elems body hok2 hbody (by omega)
          exact decodeF_bundle f t bin tt body _ htt
            (by rw [← hcat, ← hhdr, List.append_assoc]) hloop
      · intro es body hok henc hfuel
        cases es with
        | nil =>
          rw [elemsBinary] at henc
          cases henc
          rw [bundleLoopF, if_pos (show ([] : List Byte).length = 0 from rfl)]
          rfl
        | cons e es2 =>
          simp only [elemsBinary, Option.bind_eq_some, Option.map_eq_some'] at henc
          obtain ⟨bin, hbin, blob, hblob, rest2, hrest2, hcat⟩ := henc
          simp only [elemsOk, Bool.and_eq_true] at hok
          obtain ⟨hok1, hok2⟩ := hok
          have h4 := elemBinary_mod4 e bin hbin
          obtain ⟨hp31, -⟩ := OSCBlob_some bin blob hblob
          rw [padded4_of_mod4 _ h4] at hp31
          have hexact := OSCBlob_exact bin h4 hp31
          rw [hblob, Option.some.injEq] at hexact
          have hblen : body.length = 4 + bin.length + rest2.length := by
            rw [← hcat, hexact, List.length_append, List.length_append,
              be4_length]
          have hsub := ihd e bin hok1 hbin (by omega)
          have hrest := ihl es2 rest2 hok2 hrest2 (by omega)
          have hstep := bundleLoopF_cons_step f bin rest2 _ _ h4 hp31 hsub hrest
          rw [← hcat, hexact]
          exact hstep

/-! ## Further slicing helpers -/

theorem pyIdx_zero (len : Nat) : pyIdx len 0 = 0 := by
  rw [pyIdx, if_neg (by omega)]
  show min ((0 : Int)).toNat len = 0
  omega

theorem pyIdx_neg_one (len : Nat) : pyIdx len (-1) = len - 1 := by
  rw [pyIdx, if_pos (by omega)]
  show min (((-1 : Int)) + len).toNat len = len - 1
  omega

/-! ## The claims -/

/-- C1: the spec demands that decoding an `int32` or `float32` from a buffer
of fewer than 4 bytes fail with a reported truncation error and never return
a silently substituted 0 or the unconsumed buffer.  `_readInt` and
`_readFloat` do exactly what is forbidden: on the 3-byte buffer
`[0, 0, 1]` both print a message and return the substitute value `0`
together with the buffer unconsumed. -/
theorem C1_short_read_substitutes_zero :
    readInt [0, 0, 1] = (0, [0, 0, 1]) ∧
      readFloat [0, 0, 1] = (0, [0, 0, 1]) :=
  ⟨rfl, rfl⟩

/-- C2 counterexample: for the 1-byte blob `[1]`, `OSCBlob` writes the
*padded* count 4 — not the unpadded count 1 — as its big-endian 32-bit
prefix, and `_readBlob` recovers the payload together with its 3 padding
bytes, not exactly `[1]`. -/
theorem C2_cex :
    OSCBlob [1] = some [0, 0, 0, 4, 1, 0, 0, 0] ∧
      readBlob [0, 0, 0, 4, 1, 0, 0, 0] = .ok ([1, 0, 0, 0], []) ∧
      unpackInt32 [0, 0, 0, 4] = 4 ∧ ([1] : List Byte).length = 1 ∧
      ([1, 0, 0, 0] : List Byte) ≠ [1] :=
  ⟨by decide, rfl, by decide, rfl, by decide⟩

/-- C2 amended: `OSCBlob b` prefixes the big-endian 32-bit *padded* byte
count `padded4 (len b)`, the total encoded length is `4 + padded4 (len b)`,
and `_readBlob` recovers `b` followed by its 0–3 padding NUL bytes (exactly
`b` only when `len b` is already a multiple of 4). -/
theorem C2_blob_roundtrip_padded (b enc : List Byte) (h : OSCBlob b = some enc) :
    enc.take 4 = be4 (padded4 b.length) ∧
      enc.length = 4 + padded4 b.length ∧
      readBlob enc = .ok (b ++ List.replicate (padded4 b.length - b.length) 0, []) := by
  obtain ⟨hlt, henc⟩ := OSCBlob_some b enc h
  have hge := padded4_ge b.length
  refine ⟨?_, ?_, readBlob_enc b enc h⟩
  · rw [henc]
    exact take4_be4_append _ _
  · rw [henc, List.length_append, be4_length, List.length_append,
      List.length_replicate]
    omega

/-- C2 witness: the amended round-trip at the concrete blob `[1]`. -/
theorem C2_blob_witness :
    ([0, 0, 0, 4, 1, 0, 0, 0] : List Byte).take 4 =
        be4 (padded4 ([1] : List Byte).length) ∧
      ([0, 0, 0, 4, 1, 0, 0, 0] : List Byte).length =
        4 + padded4 ([1] : List Byte).length ∧
      readBlob [0, 0, 0, 4, 1, 0, 0, 0] =
        .ok ([1] ++ List.replicate
          (padded4 ([1] : List Byte).length - ([1] : List Byte).length) 0, []) :=
  C2_blob_roundtrip_padded [1] [0, 0, 0, 4, 1, 0, 0, 0] (by decide)

/-- C3: on a buffer whose type-tag field does not begin with `','`
(here address `"/a"` then the tag string `"f"`), `decodeOSC` reaches its
`raise OSCError(...)` statement.  `OSCError` is defined nowhere in
`OSCcodec.py`, so at run time this raises `NameError` — a crash, not the
defined catchable error the spec promises. -/
theorem C3_missing_comma_reaches_undefined_raise :
    decodeOSC [47, 97, 0, 0, 102, 0, 0, 0] = .error .oscErrorRaise := rfl

/-- C4 counterexample: the spec's byte vector ends `40 49 0F D0` (a binary32
near 3.14159), but `struct.pack('>f', 1047.1)` is `44 82 E3 33`, so encoding
`Message("/ping", [1047.1])` does not produce the claimed 16 bytes. -/
theorem C4_cex :
    Except.map Msg.getBinary (buildMsg "/ping" [.val (.float (10471 / 10)) none]) ≠
      .ok (some [47, 112, 105, 110, 103, 0, 0, 0, 44, 102, 0, 0,
        64, 73, 15, 208]) := by
  intro h
  rw [show Except.map Msg.getBinary
      (buildMsg "/ping" [.val (.float (10471 / 10)) none]) =
    .ok (some [47, 112, 105, 110, 103, 0, 0, 0, 44, 102, 0, 0,
      68, 130, 227, 51]) from rfl] at h
  simp only [Except.ok.injEq, Option.some.injEq] at h
  exact absurd h (by decide)

/-- C4 amended: encoding the message `"/ping"` with the single argument
`1047.1` appended without a type hint (float tag `f` inferred) produces
exactly the 16 bytes `2F 70 69 6E 67 00 00 00 2C 66 00 00 44 82 E3 33`. -/
theorem C4_ping_binary :
    Except.map Msg.getBinary (buildMsg "/ping" [.val (.float (10471 / 10)) none]) =
      .ok (some [47, 112, 105, 110, 103, 0, 0, 0, 44, 102, 0, 0,
        68, 130, 227, 51]) := rfl

/-- C5 counterexample: on the NUL-free buffer `[97, 98]` (`b"ab"`),
`_readString` does not fail — it returns the string `"a"` (all but the last
byte) and the *whole* buffer as leftover. -/
theorem C5_cex : readString [97, 98] = ("a", [97, 98]) := by decide

/-- C5 amended: on every buffer holding no NUL byte, `_readString` returns a
value rather than an error: `data.find(b'\x00')` is `-1`, so the slice
`data[0:-1]` drops the last byte and `ceil((-1+1)/4)*4 = 0` leaves the
buffer unconsumed. -/
theorem C5_no_nul_returns_value (data : List Byte) (h : ∀ b ∈ data, b ≠ 0) :
    readString data = (latin1Decode (data.take (data.length - 1)), data) := by
  have hf : data.findIdx? (· == 0) = none := by
    rw [List.findIdx?_eq_none_iff]
    intro x hx
    simpa using h x hx
  have hpf : pyFind0 data = -1 := by rw [pyFind0, hf]
  rw [readString]
  show (latin1Decode (pySlice data 0 (pyFind0 data)),
    pyDropSlice data (ceil4 (pyFind0 data + 1))) = _
  rw [hpf]
  have hc : ceil4 ((-1 : Int) + 1) = 0 := rfl
  rw [hc, pySlice, pyDropSlice, pyIdx_zero, pyIdx_neg_one]
  simp only [List.drop_zero]

/-- C5 witness: the amended statement at the concrete NUL-free buffer
`[97, 98]`. -/
theorem C5_witness :
    readString [97, 98] =
      (latin1Decode (([97, 98] : List Byte).take
        (([97, 98] : List Byte).length - 1)), [97, 98]) :=
  C5_no_nul_returns_value [97, 98] (by decide)

/-- C6 counterexample: with the explicit hint `'i'` and the value `2^31`,
the fixed-width conversion fails (`struct.pack('>i', ...)` raises
`struct.error`), and `OSCArgument` does *not* fall back to a string — the
error escapes, because the handler catches only `ValueError`. -/
theorem C6_cex :
    OSCArgument (.int (2 ^ 31)) (some 'i') = .error .structError := by
  have hpy : pyInt (.int (2 ^ 31)) = .ok (2 ^ 31) := rfl
  have hp : packInt32 (2 ^ 31) = none := by
    rw [packInt32, if_neg]
    omega
  simp only [OSCArgument, hpy, if_neg (show ¬(('i' : Char) = 'd') by decide),
    if_neg (show ¬(('i' : Char) = 'f') by decide), eq_self_iff_true, if_true, hp]

/-- C6 amended: the string fallback fires exactly on `ValueError` — for a
string value that the numeric conversion rejects, a hint of `'i'`, `'f'` or
`'d'` encodes the value as a string with tag `'s'`; other conversion
failures (such as `struct.error` on an out-of-range int, see the
counterexample) are not caught. -/
theorem C6_value_error_falls_back (s : String) (bs : List Byte) (hint : Char)
    (hh : hint = 'i' ∨ hint = 'f' ∨ hint = 'd')
    (hpi : pyParseInt s = none) (hpf : pyParseFloat s = none)
    (henc : OSCString s = some bs) :
    OSCArgument (.str s) (some hint) = .ok ('s', bs) := by
  have hsf : strFallback (.str s) = .ok ('s', bs) := by
    simp only [strFallback, henc]
  have hpyi : pyInt (.str s) = .error .valueError := by
    simp only [pyInt, hpi]
  have hpyf : pyFloat (.str s) = .error .valueError := by
    simp only [pyFloat, hpf]
  rcases hh with rfl | rfl | rfl
  · simp only [OSCArgument, hpyi, if_neg (show ¬(('i' : Char) = 'd') by decide),
      if_neg (show ¬(('i' : Char) = 'f') by decide), eq_self_iff_true, if_true]
    exact hsf
  · simp only [OSCArgument, hpyf, if_neg (show ¬(('f' : Char) = 'd') by decide),
      eq_self_iff_true, if_true]
    exact hsf
  · simp only [OSCArgument, hpyf, eq_self_iff_true, if_true]
    exact hsf

/-- C6 witness: the non-numeric string `"pig"` hinted `'i'` is encoded as a
string with tag `'s'`. -/
theorem C6_witness :
    OSCArgument (.str "pig") (some 'i') = .ok ('s', [112, 105, 103, 0]) :=
  C6_value_error_falls_back "pig" [112, 105, 103, 0] 'i' (Or.inl rfl)
    (by decide) (by decide) (by decide)

/-- C7 counterexample: decoding the "immediate" bytes
`00 00 00 00 00 00 00 01` yields the plain float `0.0` — the numeric value
zero, not a distinct sentinel value as the spec claims (`_readTimeTag` maps
`(0, low ≤ 1)` to `time = 0.0`). -/
theorem C7_cex : readTimeTag [0, 0, 0, 0, 0, 0, 0, 1] = .ok ((0 : ℚ), []) :=
  rfl

/-- C7 amended: `OSCTimeTag` of the immediate tag (any `time ≤ 0`) produces
exactly the 8 bytes `00 00 00 00 00 00 00 01`, and decoding those bytes
yields the numeric float `0.0`; the encode/decode round trip is `0 ↦ 0`,
with no distinct sentinel representation. -/
theorem C7_immediate_timetag :
    OSCTimeTag 0 = some [0, 0, 0, 0, 0, 0, 0, 1] ∧ timeRT 0 = 0 := by
  constructor
  · rw [OSCTimeTag, if_neg (by norm_num)]
    rfl
  · rfl

/-- C8: a well-formed built bundle holding a message and a nested bundle,
encoded by `getBinary` (each element wrapped by `OSCBlob`) and decoded by
`decodeOSC`, reproduces the same element count, the same element kinds and
recursively equal contents: the message's address, type tags and argument
values, and the nested bundle's header, time and elements. -/
theorem C8_bundle_roundtrip (t t2 : ℚ) (addr : String) (args : List Arg)
    (inner : List Elem) (bin : List Byte)
    (hok : elemOk (.bundle t [.msg addr args, .bundle t2 inner]) = true)
    (henc : elemBinary (.bundle t [.msg addr args, .bundle t2 inner]) = some bin) :
    decodeOSC bin =
      .ok [.s "#bundle", .f (timeRT t),
        .list (.s addr :: .s (msgTypetags args) :: args.map argDVal),
        .list (.s "#bundle" :: .f (timeRT t2) :: expectedElems inner)] := by
  have h := (decodeOSCF_elem (bin.length + 1)).1 _ bin hok henc (by omega)
  rw [decodeOSC, h]
  rfl

/-- C8 witness: the bundle at time 0 holding the message `/a 3` (tag `i`)
and an empty nested bundle round-trips through its concrete 52-byte
encoding. -/
theorem C8_witness :
    decodeOSC [35, 98, 117, 110, 100, 108, 101, 0, 0, 0, 0, 0, 0, 0, 0, 1,
        0, 0, 0, 12, 47, 97, 0, 0, 44, 105, 0, 0, 0, 0, 0, 3,
        0, 0, 0, 16, 35, 98, 117, 110, 100, 108, 101, 0,
        0, 0, 0, 0, 0, 0, 0, 1] =
      .ok [.s "#bundle", .f (timeRT 0),
        .list (.s "/a" :: .s (msgTypetags [.aInt 3]) ::
          List.map argDVal [.aInt 3]),
        .list (.s "#bundle" :: .f (timeRT 0) :: expectedElems [])] :=
  C8_bundle_roundtrip 0 0 "/a" [.aInt 3] [] _ (by decide) (by decide)

/-- C9: for every latin-1-encodable string, `OSCString` yields
`ceil((len+1)/4)*4` bytes — a multiple of 4, at least `len+1` — namely the
latin-1 bytes followed by 1 to 4 NUL bytes; a string holding any code point
above 255 makes `OSCString` fail (the `UnicodeEncodeError` of
`encode('latin-1')`, modelled as `none`). -/
theorem C9_oscstring (s : String) :
    (∀ bs, OSCString s = some bs →
        bs.length = oscStringLength s.data.length ∧
        bs.length % 4 = 0 ∧
        s.data.length + 1 ≤ bs.length ∧
        bs = s.data.map Char.toNat ++
          List.replicate (bs.length - s.data.length) 0 ∧
        1 ≤ bs.length - s.data.length ∧ bs.length - s.data.length ≤ 4) ∧
      ((∃ c ∈ s.data, 255 < c.toNat) → OSCString s = none) := by
  constructor
  · intro bs hbs
    obtain ⟨hall, hform⟩ := OSCString_some s bs hbs
    have hlen := OSCString_length s bs hbs
    have hge := oscStringLength_ge s.data.length
    have hle := oscStringLength_le s.data.length
    have hm := oscStringLength_mod4 s.data.length
    refine ⟨hlen, by omega, by omega, ?_, by omega, by omega⟩
    rw [hlen]
    exact hform
  · intro hex
    obtain ⟨c, hc, hgt⟩ := hex
    rw [OSCString, latin1Encode, if_neg]
    · rfl
    · intro hall
      exact absurd (hall c hc) (by omega)

/-- C9 witness: the amended contract at the latin-1 string `"ab"` and the
non-latin-1 string `"π"`. -/
theorem C9_witness :
    ([97, 98, 0, 0] : List Byte).length = oscStringLength "ab".data.length ∧
      ([97, 98, 0, 0] : List Byte).length % 4 = 0 ∧
      "ab".data.length + 1 ≤ ([97, 98, 0, 0] : List Byte).length ∧
      ([97, 98, 0, 0] : List Byte) = "ab".data.map Char.toNat ++
        List.replicate
          (([97, 98, 0, 0] : List Byte).length - "ab".data.length) 0 ∧
      1 ≤ ([97, 98, 0, 0] : List Byte).length - "ab".data.length ∧
      ([97, 98, 0, 0] : List Byte).length - "ab".data.length ≤ 4 ∧
      OSCString "π" = none := by
  have h1 := (C9_oscstring "ab").1 [97, 98, 0, 0] (by decide)
  have h2 := (C9_oscstring "π").2 ⟨'π', by decide, by decide⟩
  exact ⟨h1.1, h1.2.1, h1.2.2.1, h1.2.2.2.1, h1.2.2.2.2.1, h1.2.2.2.2.2, h2⟩

/-- C10: every builder operation (each reduces to a sequence of `append`s on
a fresh object) keeps `getBinary()` a multiple of 4 bytes long, for messages
and for bundles; consequently the padded length that `OSCBlob` writes as a
bundle element's 32-bit size prefix equals the element binary's exact
length, so bundle framing stays consistent. -/
theorem C10_builder_invariant :
    (∀ addr items m bin, buildMsg addr items = .ok m →
        m.getBinary = some bin → bin.length % 4 = 0) ∧
      (∀ t ms b bin, buildBnd t ms = some b →
        b.getBinary = some bin → bin.length % 4 = 0) ∧
      (∀ bin : List Byte, bin.length % 4 = 0 → bin.length < 2 ^ 31 →
        OSCBlob bin = some (be4 bin.length ++ bin)) := by
  refine ⟨?_, ?_, ?_⟩
  · intro addr items m bin hb hg
    exact getBinary_mod4 m bin (buildMsg_mod4 addr items m hb) hg
  · intro t ms b bin hb hg
    exact bndGetBinary_mod4 b bin (buildBnd_mod4 t ms b hb) hg
  · intro bin h4 hlt
    exact OSCBlob_exact bin h4 hlt

/-- C10 witness: the invariant at the fresh message `OSCMessage("/a")`, the
fresh bundle at time 0, and the blob wrapping of the message's 8-byte
binary. -/
theorem C10_witness :
    ([47, 97, 0, 0, 44, 0, 0, 0] : List Byte).length % 4 = 0 ∧
      ([35, 98, 117, 110, 100, 108, 101, 0,
        0, 0, 0, 0, 0, 0, 0, 1] : List Byte).length % 4 = 0 ∧
      OSCBlob [47, 97, 0, 0, 44, 0, 0, 0] =
        some (be4 ([47, 97, 0, 0, 44, 0, 0, 0] : List Byte).length ++
          [47, 97, 0, 0, 44, 0, 0, 0]) :=
  ⟨C10_builder_invariant.1 "/a" [] (emptyMsg "/a")
      [47, 97, 0, 0, 44, 0, 0, 0] rfl (by decide),
    C10_builder_invariant.2.1 0 [] (emptyBnd 0)
      [35, 98, 117, 110, 100, 108, 101, 0, 0, 0, 0, 0, 0, 0, 0, 1]
      rfl (by decide),
    C10_builder_invariant.2.2 [47, 97, 0, 0, 44, 0, 0, 0]
      (by decide) (by decide)⟩

end OSCcodec
